import Mathlib

/-!
Shallow embedding of the libcuid2 identifier generator (visus-io/libcuid2).

The C++ sources are translated into executable Lean definitions:

* `src/src/counter.cpp`     → `Counter.next`, `wrap64`, `counterValues`
* `src/src/utils.cpp`       → `encode_base36`, `prefix_from_byte`
* `src/src/cuid2.cpp`       → `serialize_int64_le`, `build_hash_input`,
                              `format_result`, `generate`
* `src/src/fingerprint.cpp` → `fingerprint_generate`, `Fingerprint.get`
* `src/src/platform.cpp`    → `get_environment_variables`, `get_hostname`,
                              `generate_random_hostname`

Machine integers (`int64_t`, `uint32_t`, `uint8_t`) are modelled as `Int` /
`Nat` with explicit reduction modulo `2 ^ 64` / `2 ^ 32` / `256` where the
C++ code wraps or casts.  C++ byte strings (`std::string`, `std::vector
<uint8_t>`) are modelled as `List Nat` of byte values.  Effects (the atomic
counter, the CSPRNG stream) are modelled by explicit state passing: the
random source is a byte stream `Nat → Nat` together with a read position,
and the counter is an explicit `Int` field of the generator's state.
Exceptions (`std::invalid_argument`, `Cuid2Error`) become an `Except` value.
The external SHA3-512 primitive (OpenSSL, not part of this repository) is an
abstract parameter `hash : List Nat → List Nat` of the generation
environment.
-/

namespace Cuid2

/-- Minimum allowed CUID2 identifier length (`MIN_CUID2_LENGTH` in
`cuid2.hpp`). -/
def MIN_CUID2_LENGTH : Int := 4

/-- Maximum allowed CUID2 identifier length (`MAX_CUID2_LENGTH` in
`cuid2.hpp`). -/
def MAX_CUID2_LENGTH : Int := 32

/-- Two's-complement wrap of an unbounded integer into the `int64_t` range
`[-2 ^ 63, 2 ^ 63)`.  Models the defined wrap-around behaviour of
`std::atomic<int64_t>::fetch_add` and of integer casts in the source. -/
def wrap64 (z : Int) : Int := (z + 2 ^ 63) % 2 ^ 64 - 2 ^ 63

/-- Error values of the generator: `std::invalid_argument` thrown by
`validate_length`, and `Cuid2Error` thrown by `compute_hash`
(`cuid2.cpp`). -/
inductive Cuid2Err where
  | invalidArgument (msg : String)
  | cuid2Error (msg : String)
deriving DecidableEq, Repr

namespace Counter

/-- `Counter::next()` (`counter.cpp` line 81): `value_.fetch_add(1)` returns
the pre-increment value and advances the stored `int64_t` by one, wrapping
in two's complement. -/
def next (value_ : Int) : Int × Int := (value_, wrap64 (value_ + 1))

end Counter

/-- The list of values returned by `N` successive `Counter::next()` calls
starting from stored value `seed`. -/
def counterValues (seed : Int) : Nat → List Int
  | 0 => []
  | n + 1 =>
    let (v, s1) := Counter.next seed
    v :: counterValues s1 n

/-- The 8 little-endian bytes of the `uint64_t` value `n`, as produced by
`std::bit_cast<std::array<uint8_t, 8>>` of the little-endian value in
`serialize_int64_le` (`cuid2.cpp` lines 50-56). -/
def le64Bytes (n : Nat) : List Nat :=
  (List.range 8).map fun i => (n >>> (8 * i)) % 256

/-- The 4 little-endian bytes of the `uint32_t` value `n`, as produced by
`std::bit_cast<std::array<uint8_t, 4>>` in `fingerprint.cpp` lines 66-67. -/
def le32Bytes (n : Nat) : List Nat :=
  (List.range 4).map fun i => (n >>> (8 * i)) % 256

/-- `serialize_int64_le` (`cuid2.cpp` lines 50-56): casts the `int64_t`
value to `uint64_t` (two's complement) and appends its 8 bytes to the
buffer in little-endian order. -/
def serialize_int64_le (buffer : List Nat) (VALUE : Int) : List Nat :=
  buffer ++ le64Bytes (VALUE % 2 ^ 64).toNat

/-- `build_hash_input` (`cuid2.cpp` lines 91-106): serializes the timestamp
and the counter as 8-byte little-endian integers, then appends the
fingerprint bytes and the random bytes. -/
def build_hash_input (TIMESTAMP COUNTER : Int)
    (fingerprint random_bytes : List Nat) : List Nat :=
  let h0 : List Nat := []
  let h1 := serialize_int64_le h0 TIMESTAMP
  let h2 := serialize_int64_le h1 COUNTER
  h2 ++ fingerprint ++ random_bytes

/-- The base-36 alphabet returned by `get_base36_chars` (`utils.cpp` line
44). -/
def BASE36_CHARS : List Char := "0123456789abcdefghijklmnopqrstuvwxyz".toList

/-- The digit-extraction loop of `encode_base36` (`utils.cpp` lines
104-108): while `num > 0`, push the character for `num % 36` and divide
`num` by 36.  Written with an explicit fuel argument so that it is
structurally recursive; `fuel ≥ num` suffices since `num` strictly
decreases. -/
def base36Loop : Nat → Nat → List Char
  | 0, _ => []
  | fuel + 1, num =>
    if num = 0 then []
    else BASE36_CHARS.getD (num % 36) '0' :: base36Loop fuel (num / 36)

/-- `encode_base36` (`utils.cpp` lines 85-113): interprets the byte span as
a big-endian unsigned integer built by `num = (num << 8) | BYTE`, then
extracts base-36 digits least-significant first and reverses them.  Empty
input and zero value both return `"0"`. -/
def encode_base36 (data : List Nat) : String :=
  if data = [] then "0"
  else
    let num := data.foldl (fun acc BYTE => (acc <<< 8) ||| BYTE) 0
    if num = 0 then "0"
    else ⟨(base36Loop num num).reverse⟩

/-- `prefix_from_byte` (`utils.cpp` line 55): maps a random byte to the
letter `'a' + random_byte % 26`. -/
def prefix_from_byte (random_byte : Nat) : Char :=
  Char.ofNat (97 + random_byte % 26)

/-- `format_result` (`cuid2.cpp` lines 159-171): result is the one-letter
prefix followed by the first `MAX_LENGTH - 1` characters of `ENCODED` when
`ENCODED` is long enough, else by all of `ENCODED`. -/
def format_result (PREFIX : Char) (ENCODED : String) (MAX_LENGTH : Nat) :
    String :=
  let NEEDED_LENGTH := MAX_LENGTH - 1
  if NEEDED_LENGTH ≤ ENCODED.length then
    ⟨PREFIX :: ENCODED.toList.take NEEDED_LENGTH⟩
  else
    ⟨PREFIX :: ENCODED.toList⟩

/-- Read-only environment of one `generate` call: the captured timestamp
(`utils::get_timestamp_ticks`), the cached fingerprint bytes
(`Fingerprint::get`), the platform CSPRNG modelled as a byte stream indexed
by draw position (`platform::get_random_bytes`), and the external SHA3-512
primitive (`compute_hash`, OpenSSL) as an abstract function. -/
structure GenEnv where
  timestamp : Int
  fingerprint : List Nat
  rng : Nat → Nat
  hash : List Nat → List Nat

/-- Mutable process state observable by `generate`: the counter's stored
`int64_t` value and the number of random bytes drawn so far from the
stream. -/
structure GenState where
  counter : Int
  pos : Nat
deriving DecidableEq, Repr

/-- `platform::get_random_bytes(buf, n)`: returns the next `n` bytes of the
random stream and advances the read position. -/
def drawBytes (env : GenEnv) (st : GenState) (n : Nat) :
    List Nat × GenState :=
  ((List.range n).map fun i => env.rng (st.pos + i),
   { st with pos := st.pos + n })

/-- The message of the `std::invalid_argument` thrown by `validate_length`
(`cuid2.cpp` lines 66-73). -/
def validationMessage : String :=
  "MAX_LENGTH must be between " ++ toString MIN_CUID2_LENGTH ++ " and "
    ++ toString MAX_CUID2_LENGTH

/-- `generate` (`cuid2.cpp` lines 191-208): validates the length, then
reads the timestamp, the next counter value, the fingerprint, `MAX_LENGTH`
random bytes, one further random byte for the prefix letter, hashes the
serialized buffer and formats the base-36 encoding of the digest.  Returns
the result (or the validation error) together with the post-call state. -/
def generate (env : GenEnv) (MAX_LENGTH : Int) (st : GenState) :
    Except Cuid2Err String × GenState :=
  if MAX_LENGTH < MIN_CUID2_LENGTH ∨ MAX_CUID2_LENGTH < MAX_LENGTH then
    (.error (.invalidArgument validationMessage), st)
  else
    let TIMESTAMP := env.timestamp
    let (COUNTER, counter1) := Counter.next st.counter
    let st1 : GenState := { st with counter := counter1 }
    let fingerprint := env.fingerprint
    let (random_bytes, st2) := drawBytes env st1 MAX_LENGTH.toNat
    let (prefix_bytes, st3) := drawBytes env st2 1
    let PREFIX := prefix_from_byte (prefix_bytes.headD 0)
    let HASH_INPUT := build_hash_input TIMESTAMP COUNTER fingerprint
      random_bytes
    let HASH_OUTPUT := env.hash HASH_INPUT
    let ENCODED := encode_base36 HASH_OUTPUT
    (.ok (format_result PREFIX ENCODED MAX_LENGTH.toNat), st3)

/-- The `MAX_LENGTH` random bytes drawn by a `generate` call entered in
state `st`. -/
def freshBytes (env : GenEnv) (st : GenState) (n : Nat) : List Nat :=
  (List.range n).map fun i => env.rng (st.pos + i)

/-- The exact buffer a successful `generate env L st` call passes to the
hash primitive. -/
def hashInputOf (env : GenEnv) (L : Int) (st : GenState) : List Nat :=
  build_hash_input env.timestamp st.counter env.fingerprint
    (freshBytes env st L.toNat)

/-- Unfolding of `generate` on a valid length: the result is `ok` of the
formatted identifier, the prefix byte is the byte drawn right after the
`L` fresh random bytes, and the state advances by one counter tick and
`L + 1` stream positions. -/
theorem generate_valid_eq (env : GenEnv) (L : Int) (st : GenState)
    (h4 : MIN_CUID2_LENGTH ≤ L) (h32 : L ≤ MAX_CUID2_LENGTH) :
    generate env L st =
      (.ok (format_result (prefix_from_byte (env.rng (st.pos + L.toNat)))
            (encode_base36 (env.hash (hashInputOf env L st))) L.toNat),
       { counter := wrap64 (st.counter + 1), pos := st.pos + L.toNat + 1 }) := by
  have hcond : ¬ (L < MIN_CUID2_LENGTH ∨ MAX_CUID2_LENGTH < L) := by
    push_neg
    exact ⟨h4, h32⟩
  simp only [generate, if_neg hcond, Counter.next, drawBytes, hashInputOf,
    freshBytes, List.range_succ, List.range_zero, List.map_append,
    List.map_cons, List.map_nil, List.nil_append, List.headD_cons,
    Nat.add_zero]

/-- Strict byte-wise lexicographic comparison of byte lists, the order
`std::less<>` induces on `std::string` keys in the environment-variable
`std::map` (`platform.cpp` lines 218-232). -/
def bytesLt : List Nat → List Nat → Bool
  | _, [] => false
  | [], _ :: _ => true
  | a :: as, b :: bs =>
    if a < b then true
    else if b < a then false
    else bytesLt as bs

/-- Ordered-map insertion with `try_emplace` semantics: the pair is placed
at its sorted position by key, and when the key is already present the
existing entry is kept unchanged.  Models `env_vars.try_emplace(key, value)`
on the `std::map` of `get_environment_variables`. -/
def env_insert (key value : List Nat) :
    List (List Nat × List Nat) → List (List Nat × List Nat)
  | [] => [(key, value)]
  | (k, v) :: rest =>
    if bytesLt key k then (key, value) :: (k, v) :: rest
    else if key = k then (k, v) :: rest
    else (k, v) :: env_insert key value rest

/-- Splits an `environ` entry at its first `'='` byte (61), as
`std::strchr(*env, '=')` does in `get_environment_variables`
(`platform.cpp` line 222); entries without `'='` yield `none` and are
skipped. -/
def splitAtFirstEq : List Nat → Option (List Nat × List Nat)
  | [] => none
  | c :: cs =>
    if c = 61 then some ([], cs)
    else
      match splitAtFirstEq cs with
      | some (k, v) => some (c :: k, v)
      | none => none

namespace platform

/-- `get_environment_variables` (`platform.cpp` lines 218-232, POSIX
branch): folds over the `environ` entries, splitting each at the first
`'='` and inserting the key/value pair into a key-sorted map with
first-wins deduplication. -/
def get_environment_variables (environ : List (List Nat)) :
    List (List Nat × List Nat) :=
  environ.foldl
    (fun env_vars entry =>
      match splitAtFirstEq entry with
      | some (k, v) => env_insert k v env_vars
      | none => env_vars)
    []

/-- The lowercase hexadecimal digit byte for the value `d`
(`'0'..'9'` = 48-57, `'a'..'f'` = 97-102), as printed by
`fmt::format_to(.., "..:02x..", BYTE)`. -/
def hexDigit (d : Nat) : Nat := if d < 10 then 48 + d else 87 + d

/-- The two lowercase hexadecimal digit bytes of a byte value (`0 ≤ BYTE <
256`), high digit first. -/
def hexByte (BYTE : Nat) : List Nat := [hexDigit (BYTE / 16), hexDigit (BYTE % 16)]

/-- `generate_random_hostname` (`platform.cpp` lines 46-59): formats each
of the given random bytes as two lowercase hexadecimal characters and
concatenates them. -/
def generate_random_hostname (random_bytes : List Nat) : List Nat :=
  random_bytes.foldl (fun result BYTE => result ++ hexByte BYTE) []

/-- `get_hostname` (`platform.cpp` lines 199-207, POSIX branch): returns
the system hostname when the `gethostname` call succeeds, else the
random-hex fallback built from the next 8 bytes of the random stream.  The
outcome of the platform call is modelled as an `Option`. -/
def get_hostname (sysHostname : Option (List Nat)) (rng : Nat → Nat) :
    List Nat :=
  match sysHostname with
  | some hostname => hostname
  | none => generate_random_hostname ((List.range 8).map rng)

end platform

/-- The anonymous-namespace `generate` of `fingerprint.cpp` (lines 39-74):
concatenates the hostname bytes, the 4 little-endian bytes of the process
id cast to `uint32_t`, and the `key=value` serialization of the (sorted,
deduplicated) environment variables with no separator between pairs. -/
def fingerprint_generate (hostname : List Nat) (PROCESS_ID : Int)
    (env_vars : List (List Nat × List Nat)) : List Nat :=
  let env_string :=
    env_vars.foldl (fun acc kv => acc ++ kv.1 ++ [61] ++ kv.2) []
  hostname ++ le32Bytes (PROCESS_ID % 2 ^ 32).toNat ++ env_string

namespace Fingerprint

/-- `Fingerprint::get` (`fingerprint.cpp` lines 84-97) with the one-time
lazy initialization made explicit: the cache is an `Option`; the first call
computes `fingerprint_generate` on the process inputs and fills the cache,
every later call returns the cached bytes without recomputation. -/
def get (hostname : List Nat) (pid : Int) (environ : List (List Nat)) :
    Option (List Nat) → List Nat × Option (List Nat)
  | some cached_value => (cached_value, some cached_value)
  | none =>
    let v := fingerprint_generate hostname pid
      (platform.get_environment_variables environ)
    (v, some v)

end Fingerprint

/-- The results and final cache state of `n` successive `Fingerprint::get`
calls threaded through the cache. -/
def fingerprintCalls (hostname : List Nat) (pid : Int)
    (environ : List (List Nat)) :
    Nat → Option (List Nat) → List (List Nat) × Option (List Nat)
  | 0, st => ([], st)
  | n + 1, st =>
    let (v, st1) := Fingerprint.get hostname pid environ st
    let (vs, st2) := fingerprintCalls hostname pid environ n st1
    (v :: vs, st2)

/-! ### Lemmas about the base-36 codec -/

/-- Disjoint shift-or is addition: for `b < 2 ^ k`, `(a <<< k) ||| b`
equals `a * 2 ^ k + b`.  This identifies the accumulator step of
`encode_base36` with ordinary base-256 accumulation. -/
theorem shiftLeft_lor_eq_add :
    ∀ (k b : Nat), b < 2 ^ k → ∀ a, (a <<< k) ||| b = a * 2 ^ k + b := by
  intro k
  induction k with
  | zero =>
    intro b hb a
    have h1 : (2 : Nat) ^ 0 = 1 := rfl
    have hb0 : b = 0 := by omega
    subst hb0
    simp
  | succ k ih =>
    intro b hb a
    have hx : a <<< (k + 1) = 2 * (a <<< k) := Nat.shiftLeft_succ a k
    have hdiv : (a <<< (k + 1) ||| b) / 2 = (a <<< k) ||| (b / 2) := by
      rw [Nat.or_div_two, hx, Nat.mul_div_cancel_left _ (by norm_num)]
    have hpow : (2 : Nat) ^ (k + 1) = 2 * 2 ^ k := by
      rw [Nat.pow_succ]; ring
    have hb2 : b / 2 < 2 ^ k := by omega
    have hih : (a <<< (k + 1) ||| b) / 2 = a * 2 ^ k + b / 2 := by
      rw [hdiv, ih _ hb2]
    have hmod : (a <<< (k + 1) ||| b) % 2 = b % 2 := by
      have h1 := Nat.or_mod_two_eq_one (a := a <<< (k + 1)) (b := b)
      have h2 : a <<< (k + 1) % 2 = 0 := by omega
      omega
    have hsplit := Nat.div_add_mod (a <<< (k + 1) ||| b) 2
    have hmul : a * 2 ^ (k + 1) = 2 * (a * 2 ^ k) := by
      rw [Nat.pow_succ]; ring
    omega

/-- The big-endian unsigned-integer value of a byte sequence.  Modelled
from the spec: the input "is interpreted as a single big-endian unsigned
integer of arbitrary width". -/
def bigEndianVal (data : List Nat) : Nat :=
  data.foldl (fun acc b => acc * 256 + b) 0

/-- On byte-valued input, the accumulation loop of `encode_base36`
computes the big-endian value. -/
theorem foldl_shiftLeft_lor (data : List Nat) (h : ∀ b ∈ data, b < 256) :
    ∀ acc, data.foldl (fun acc BYTE => (acc <<< 8) ||| BYTE) acc
      = data.foldl (fun acc b => acc * 256 + b) acc := by
  induction data with
  | nil => intro acc; rfl
  | cons x xs ih =>
    intro acc
    simp only [List.foldl_cons]
    have hx : x < 2 ^ 8 := h x (by simp)
    rw [shiftLeft_lor_eq_add 8 x hx acc]
    have h256 : (2 : Nat) ^ 8 = 256 := by norm_num
    rw [h256]
    exact ih (fun b hb => h b (by simp [hb])) _

/-- With enough fuel, the digit loop of `encode_base36` produces exactly
the base-36 digits of the value, least significant first, mapped to their
alphabet characters. -/
theorem base36Loop_eq_digits :
    ∀ fuel num, num ≤ fuel →
      base36Loop fuel num
        = (Nat.digits 36 num).map fun d => BASE36_CHARS.getD d '0' := by
  intro fuel
  induction fuel with
  | zero =>
    intro num h
    have h0 : num = 0 := by omega
    subst h0
    simp [base36Loop]
  | succ fuel ih =>
    intro num h
    by_cases h0 : num = 0
    · subst h0
      simp [base36Loop]
    · have hpos : 0 < num := Nat.pos_of_ne_zero h0
      have hdlt : num / 36 < num := Nat.div_lt_self hpos (by norm_num)
      simp only [base36Loop, if_neg h0]
      rw [Nat.digits_def' (by norm_num : 1 < 36) hpos]
      simp only [List.map_cons]
      rw [ih (num / 36) (by omega)]

/-- Every character emitted by the digit loop belongs to the base-36
alphabet. -/
theorem base36Loop_chars :
    ∀ fuel num c, c ∈ base36Loop fuel num → c ∈ BASE36_CHARS := by
  intro fuel
  induction fuel with
  | zero =>
    intro num c hc
    simp [base36Loop] at hc
  | succ fuel ih =>
    intro num c hc
    by_cases h0 : num = 0
    · subst h0; simp [base36Loop] at hc
    · simp only [base36Loop, if_neg h0] at hc
      rcases List.mem_cons.mp hc with h | h
      · subst h
        have hlt : num % 36 < BASE36_CHARS.length :=
          Nat.mod_lt _ (by norm_num)
        simp only [List.getD_eq_getElem?_getD, List.getElem?_eq_getElem hlt,
          Option.getD_some]
        exact List.getElem_mem hlt
      · exact ih _ _ h

/-- Canonical base-36 string of a natural number.  Modelled from the spec:
digits of the value in base 36 over the alphabet
`"0123456789abcdefghijklmnopqrstuvwxyz"`, most significant first, with no
leading zero digits, and `"0"` for the value zero. -/
def natToBase36 (n : Nat) : String :=
  if n = 0 then "0"
  else ⟨((Nat.digits 36 n).map fun d => BASE36_CHARS.getD d '0').reverse⟩

/-- `encode_base36` computes the canonical base-36 representation of the
big-endian value of its byte input. -/
theorem encode_base36_eq (data : List Nat) (h : ∀ b ∈ data, b < 256) :
    encode_base36 data = natToBase36 (bigEndianVal data) := by
  unfold encode_base36 natToBase36 bigEndianVal
  by_cases he : data = []
  · subst he
    simp
  · rw [if_neg he, foldl_shiftLeft_lor data h 0]
    by_cases h0 : data.foldl (fun acc b => acc * 256 + b) 0 = 0
    · simp [h0]
    · rw [if_neg h0, if_neg h0, base36Loop_eq_digits _ _ le_rfl]

/-- Every character of an `encode_base36` result belongs to the base-36
alphabet. -/
theorem encode_base36_chars (data : List Nat) :
    ∀ c ∈ (encode_base36 data).toList, c ∈ BASE36_CHARS := by
  unfold encode_base36
  by_cases he : data = []
  · subst he
    intro c hc
    simp at hc
    simp [hc, BASE36_CHARS]
  · rw [if_neg he]
    by_cases h0 : data.foldl (fun acc BYTE => (acc <<< 8) ||| BYTE) 0 = 0
    · rw [if_pos h0]
      intro c hc
      simp at hc
      simp [hc, BASE36_CHARS]
    · rw [if_neg h0]
      intro c hc
      have hc' : c ∈ (base36Loop
          (data.foldl (fun acc BYTE => (acc <<< 8) ||| BYTE) 0)
          (data.foldl (fun acc BYTE => (acc <<< 8) ||| BYTE) 0)).reverse := hc
      exact base36Loop_chars _ _ c (List.mem_reverse.mp hc')

/-- Every character of the base-36 alphabet is a digit `'0'..'9'` or a
lowercase letter `'a'..'z'`. -/
theorem base36_chars_range :
    ∀ c ∈ BASE36_CHARS, ('0' ≤ c ∧ c ≤ '9') ∨ ('a' ≤ c ∧ c ≤ 'z') := by
  decide

/-- The prefix letter lies in `'a'..'z'` for every byte value. -/
theorem prefix_from_byte_range (b : Nat) :
    'a' ≤ prefix_from_byte b ∧ prefix_from_byte b ≤ 'z' := by
  have hlt : b % 26 < 26 := Nat.mod_lt _ (by norm_num)
  have hall : ∀ k < 26,
      'a' ≤ Char.ofNat (97 + k) ∧ Char.ofNat (97 + k) ≤ 'z' := by decide
  exact hall _ hlt

/-! ### Helper lemmas about strings and `format_result` -/

/-- The length of a string built from an explicit character list. -/
theorem string_mk_length (l : List Char) : (String.mk l).length = l.length := rfl

/-- The character list of a string built from an explicit character list. -/
theorem string_mk_toList (l : List Char) : (String.mk l).toList = l := rfl

/-- `format_result` when the encoded string is long enough: prefix plus the
first `M - 1` encoded characters. -/
theorem format_result_long (PREFIX : Char) (ENCODED : String) (M : Nat)
    (h : M - 1 ≤ ENCODED.length) :
    format_result PREFIX ENCODED M = ⟨PREFIX :: ENCODED.toList.take (M - 1)⟩ := by
  simp only [format_result]
  rw [if_pos h]

/-- `format_result` when the encoded string is too short: prefix plus the
whole encoded string. -/
theorem format_result_short (PREFIX : Char) (ENCODED : String) (M : Nat)
    (h : ENCODED.length < M - 1) :
    format_result PREFIX ENCODED M = ⟨PREFIX :: ENCODED.toList⟩ := by
  simp only [format_result]
  rw [if_neg (by omega)]

/-- A concrete environment used to instantiate the generator theorems: time
zero, empty fingerprint, an all-zero random stream, and a hash primitive
returning a fixed 64-byte digest of `0xff` bytes. -/
def sampleEnv : GenEnv :=
  { timestamp := 0
    fingerprint := []
    rng := fun _ => 0
    hash := fun _ => List.replicate 64 255 }

/-- A concrete initial state used to instantiate the generator theorems. -/
def sampleState : GenState := { counter := 0, pos := 0 }

/-! ### Claim theorems about `generate` -/

/-- C2: for every length outside `[4, 32]`, `generate` fails with an
`InvalidArgument` condition whose message carries the bounds 4 and 32, and
returns its state unchanged: the counter is not advanced and no random
bytes are drawn. -/
theorem generate_invalid_length (env : GenEnv) (L : Int) (st : GenState)
    (h : L < 4 ∨ 32 < L) :
    generate env L st
      = (.error (.invalidArgument validationMessage), st)
    ∧ validationMessage = "MAX_LENGTH must be between 4 and 32" := by
  constructor
  · simp only [generate]
    rw [if_pos (by exact h)]
  · rfl

/-- C2 witness: `generate` at length 33 fails with the exact message and an
unchanged state. -/
theorem generate_invalid_length_witness :
    (generate sampleEnv 33 sampleState
      = (.error (.invalidArgument validationMessage), sampleState)
    ∧ validationMessage = "MAX_LENGTH must be between 4 and 32") :=
  generate_invalid_length sampleEnv 33 sampleState (by norm_num)

/-- C1: for every length in `[4, 32]`, provided the base-36 encoding of the
digest has at least 31 characters (the spec's premise for the external
512-bit hash), `generate` returns a string of exactly `length` characters
whose first character is a lowercase letter and whose characters all lie in
`0-9a-z`. -/
theorem generate_length_and_charset (env : GenEnv) (L : Int) (st : GenState)
    (h4 : 4 ≤ L) (h32 : L ≤ 32)
    (henc : 31 ≤ (encode_base36 (env.hash (hashInputOf env L st))).length) :
    ∃ s : String, (generate env L st).1 = .ok s
      ∧ s.length = L.toNat
      ∧ (∃ p rest, s.toList = p :: rest ∧ 'a' ≤ p ∧ p ≤ 'z')
      ∧ (∀ c ∈ s.toList, ('0' ≤ c ∧ c ≤ '9') ∨ ('a' ≤ c ∧ c ≤ 'z')) := by
  have hL4 : 4 ≤ L.toNat := by omega
  have hL32 : L.toNat ≤ 32 := by omega
  rw [generate_valid_eq env L st h4 h32]
  set ENCODED := encode_base36 (env.hash (hashInputOf env L st)) with hE
  set PREFIX := prefix_from_byte (env.rng (st.pos + L.toNat)) with hP
  have hlen : L.toNat - 1 ≤ ENCODED.length := by omega
  refine ⟨format_result PREFIX ENCODED L.toNat, rfl, ?_, ?_, ?_⟩
  · rw [format_result_long PREFIX ENCODED L.toNat hlen, string_mk_length]
    have htake : (ENCODED.toList.take (L.toNat - 1)).length = L.toNat - 1 := by
      rw [List.length_take]
      have : ENCODED.toList.length = ENCODED.length := rfl
      omega
    simp only [List.length_cons, htake]
    omega
  · rw [format_result_long PREFIX ENCODED L.toNat hlen, string_mk_toList]
    exact ⟨PREFIX, _, rfl, prefix_from_byte_range _⟩
  · rw [format_result_long PREFIX ENCODED L.toNat hlen, string_mk_toList]
    intro c hc
    rcases List.mem_cons.mp hc with hcp | hct
    · subst hcp
      exact Or.inr (prefix_from_byte_range _)
    · have hcE : c ∈ ENCODED.toList := List.take_subset _ _ hct
      exact base36_chars_range c (encode_base36_chars _ c hcE)

/-- C1 witness: at length 24 in the sample environment the generated
identifier has length 24, starts with a lowercase letter, and uses only the
base-36 alphabet. -/
theorem generate_length_and_charset_witness :
    ∃ s : String, (generate sampleEnv 24 sampleState).1 = .ok s
      ∧ s.length = (24 : Int).toNat
      ∧ (∃ p rest, s.toList = p :: rest ∧ 'a' ≤ p ∧ p ≤ 'z')
      ∧ (∀ c ∈ s.toList, ('0' ≤ c ∧ c ≤ '9') ∨ ('a' ≤ c ∧ c ≤ 'z')) :=
  generate_length_and_charset sampleEnv 24 sampleState (by norm_num)
    (by norm_num) (by decide)

/-- The little-endian bytes of a 64-bit value, characterized by base-256
division: byte `i` is `n / 256 ^ i % 256`. -/
theorem le64Bytes_eq (n : Nat) :
    le64Bytes n = [n % 256, n / 256 % 256, n / 256 ^ 2 % 256,
      n / 256 ^ 3 % 256, n / 256 ^ 4 % 256, n / 256 ^ 5 % 256,
      n / 256 ^ 6 % 256, n / 256 ^ 7 % 256] := by
  have hr : List.range 8 = [0, 1, 2, 3, 4, 5, 6, 7] := rfl
  simp only [le64Bytes, hr, List.map_cons, List.map_nil,
    Nat.shiftRight_eq_div_pow]
  norm_num

/-- C5: on a valid length the buffer passed to the hash primitive is
exactly the 8 little-endian bytes of the timestamp, the 8 little-endian
bytes of the counter value, the fingerprint bytes, and the `length` freshly
drawn random bytes, in that order with no length prefixes; its total size
is `16 + |fingerprint| + length`. -/
theorem hash_input_layout (env : GenEnv) (L : Int) (st : GenState)
    (h4 : 4 ≤ L) (h32 : L ≤ 32) :
    (generate env L st).1
      = .ok (format_result (prefix_from_byte (env.rng (st.pos + L.toNat)))
          (encode_base36 (env.hash (hashInputOf env L st))) L.toNat)
    ∧ hashInputOf env L st
        = le64Bytes (env.timestamp % 2 ^ 64).toNat
          ++ le64Bytes (st.counter % 2 ^ 64).toNat
          ++ env.fingerprint ++ freshBytes env st L.toNat
    ∧ freshBytes env st L.toNat
        = (List.range L.toNat).map (fun i => env.rng (st.pos + i))
    ∧ (freshBytes env st L.toNat).length = L.toNat
    ∧ (hashInputOf env L st).length
        = 16 + env.fingerprint.length + L.toNat
    ∧ (le64Bytes (env.timestamp % 2 ^ 64).toNat).length = 8
    ∧ (le64Bytes (st.counter % 2 ^ 64).toNat).length = 8 := by
  have hlen8 : ∀ m : Nat, (le64Bytes m).length = 8 := by
    intro m
    simp [le64Bytes]
  have hfresh : (freshBytes env st L.toNat).length = L.toNat := by
    simp [freshBytes]
  refine ⟨?_, ?_, rfl, hfresh, ?_, hlen8 _, hlen8 _⟩
  · rw [generate_valid_eq env L st h4 h32]
  · simp only [hashInputOf, build_hash_input, serialize_int64_le,
      List.nil_append, List.append_assoc]
  · simp only [hashInputOf, build_hash_input, serialize_int64_le,
      List.nil_append, List.length_append, hlen8, hfresh]

/-- C5 witness: the layout equalities at length 24 in the sample
environment. -/
theorem hash_input_layout_witness :
    (generate sampleEnv 24 sampleState).1
      = .ok (format_result
          (prefix_from_byte (sampleEnv.rng (sampleState.pos + (24 : Int).toNat)))
          (encode_base36 (sampleEnv.hash (hashInputOf sampleEnv 24 sampleState)))
          (24 : Int).toNat)
    ∧ hashInputOf sampleEnv 24 sampleState
        = le64Bytes (sampleEnv.timestamp % 2 ^ 64).toNat
          ++ le64Bytes (sampleState.counter % 2 ^ 64).toNat
          ++ sampleEnv.fingerprint ++ freshBytes sampleEnv sampleState (24 : Int).toNat
    ∧ freshBytes sampleEnv sampleState (24 : Int).toNat
        = (List.range (24 : Int).toNat).map (fun i => sampleEnv.rng (sampleState.pos + i))
    ∧ (freshBytes sampleEnv sampleState (24 : Int).toNat).length = (24 : Int).toNat
    ∧ (hashInputOf sampleEnv 24 sampleState).length
        = 16 + sampleEnv.fingerprint.length + (24 : Int).toNat
    ∧ (le64Bytes (sampleEnv.timestamp % 2 ^ 64).toNat).length = 8
    ∧ (le64Bytes (sampleState.counter % 2 ^ 64).toNat).length = 8 :=
  hash_input_layout sampleEnv 24 sampleState (by norm_num) (by norm_num)

/-- C8: a successful `generate` returns the prefix letter followed by the
first `length - 1` characters of the base-36 encoded digest, and when the
encoded digest is shorter than `length - 1` characters it returns the
prefix letter followed by the entire encoded string, an under-length
result. -/
theorem format_result_truncation (env : GenEnv) (L : Int) (st : GenState)
    (h4 : 4 ≤ L) (h32 : L ≤ 32) :
    (generate env L st).1
      = .ok (format_result (prefix_from_byte (env.rng (st.pos + L.toNat)))
          (encode_base36 (env.hash (hashInputOf env L st))) L.toNat)
    ∧ (∀ (PREFIX : Char) (ENCODED : String),
        (L.toNat - 1 ≤ ENCODED.length →
          format_result PREFIX ENCODED L.toNat
            = ⟨PREFIX :: ENCODED.toList.take (L.toNat - 1)⟩)
        ∧ (ENCODED.length < L.toNat - 1 →
          format_result PREFIX ENCODED L.toNat = ⟨PREFIX :: ENCODED.toList⟩
          ∧ (format_result PREFIX ENCODED L.toNat).length
              = 1 + ENCODED.length
          ∧ (format_result PREFIX ENCODED L.toNat).length < L.toNat)) := by
  constructor
  · rw [generate_valid_eq env L st h4 h32]
  · intro PREFIX ENCODED
    refine ⟨fun h => format_result_long PREFIX ENCODED L.toNat h, fun h => ?_⟩
    have hshort := format_result_short PREFIX ENCODED L.toNat h
    refine ⟨hshort, ?_, ?_⟩
    · rw [hshort, string_mk_length]
      simp only [List.length_cons]
      have : ENCODED.toList.length = ENCODED.length := rfl
      omega
    · rw [hshort, string_mk_length]
      simp only [List.length_cons]
      have : ENCODED.toList.length = ENCODED.length := rfl
      omega

/-- C8 witness: the truncation/fallback behaviour at length 24 in the
sample environment. -/
theorem format_result_truncation_witness :
    (generate sampleEnv 24 sampleState).1
      = .ok (format_result
          (prefix_from_byte (sampleEnv.rng (sampleState.pos + (24 : Int).toNat)))
          (encode_base36 (sampleEnv.hash (hashInputOf sampleEnv 24 sampleState)))
          (24 : Int).toNat)
    ∧ (∀ (PREFIX : Char) (ENCODED : String),
        ((24 : Int).toNat - 1 ≤ ENCODED.length →
          format_result PREFIX ENCODED (24 : Int).toNat
            = ⟨PREFIX :: ENCODED.toList.take ((24 : Int).toNat - 1)⟩)
        ∧ (ENCODED.length < (24 : Int).toNat - 1 →
          format_result PREFIX ENCODED (24 : Int).toNat
            = ⟨PREFIX :: ENCODED.toList⟩
          ∧ (format_result PREFIX ENCODED (24 : Int).toNat).length
              = 1 + ENCODED.length
          ∧ (format_result PREFIX ENCODED (24 : Int).toNat).length
              < (24 : Int).toNat)) :=
  format_result_truncation sampleEnv 24 sampleState (by norm_num) (by norm_num)

/-! ### Claim theorems about the counter -/

/-- C4 counterexample: with the stored value at `2 ^ 63 - 1` (reachable,
since the random seed times the odd multiplier ranges over all of
`int64`), two calls return `[2 ^ 63 - 1, -2 ^ 63]`: the second value is not
one greater than the first, and the claimed range value `seed + 1 = 2 ^ 63`
is never returned — `fetch_add` wraps in two's complement. -/
theorem counter_wrap_counterexample :
    counterValues ((2 : Int) ^ 63 - 1) 2 = [2 ^ 63 - 1, -2 ^ 63]
    ∧ ((2 : Int) ^ 63 - 1) + 1 ∉ counterValues ((2 : Int) ^ 63 - 1) 2
    ∧ ¬ (counterValues ((2 : Int) ^ 63 - 1) 2).Chain' (fun a b => b = a + 1) := by
  refine ⟨by decide, by decide, ?_⟩
  intro hch
  have h := (List.chain'_cons.mp (by
    have e : counterValues ((2 : Int) ^ 63 - 1) 2
        = [2 ^ 63 - 1, -2 ^ 63] := by decide
    rw [e] at hch
    exact hch)).1
  revert h
  decide

/-- C4 as amended: as long as no 64-bit overflow occurs within the `N`
calls (`seed + N - 1 ≤ 2 ^ 63 - 1`), the `N` returned values are exactly
`seed, seed + 1, …, seed + N - 1` in order: pairwise distinct, contiguous,
and each exactly one greater than its predecessor. -/
theorem counterValues_contiguous (seed : Int) (N : Nat) (h1 : 1 ≤ N)
    (hlo : -(2 ^ 63) ≤ seed) (hhi : seed + N - 1 ≤ 2 ^ 63 - 1) :
    counterValues seed N = (List.range N).map (fun i : Nat => seed + (i : Int))
    ∧ (counterValues seed N).Nodup
    ∧ (counterValues seed N).Chain' (fun a b => b = a + 1) := by
  have e63 : (2 : Int) ^ 63 = 9223372036854775808 := by norm_num
  have e64 : (2 : Int) ^ 64 = 18446744073709551616 := by norm_num
  have hmain : ∀ M : Nat, ∀ s : Int, -(2 ^ 63) ≤ s → s + M - 1 ≤ 2 ^ 63 - 1 →
      counterValues s M = (List.range M).map (fun i : Nat => s + (i : Int)) := by
    intro M
    induction M with
    | zero => intro s _ _; rfl
    | succ n ih =>
      intro s hlo' hhi'
      rcases Nat.eq_zero_or_pos n with hn | hn
      · subst hn
        simp [counterValues, Counter.next, List.range_succ]
      · have hwrap : wrap64 (s + 1) = s + 1 := by
          unfold wrap64
          have hn1 : (1 : Int) ≤ (n : Int) := by exact_mod_cast hn
          have hcast : ((n + 1 : Nat) : Int) = (n : Int) + 1 := by push_cast; ring
          rw [hcast] at hhi'
          rw [Int.emod_eq_of_lt (by omega) (by omega)]
          ring
        simp only [counterValues, Counter.next]
        rw [hwrap, ih (s + 1) (by omega) (by
          have hcast : ((n + 1 : Nat) : Int) = (n : Int) + 1 := by push_cast; ring
          rw [hcast] at hhi'
          omega)]
        rw [List.range_succ_eq_map, List.map_cons, List.map_map]
        congr 1
        · simp
        · refine List.map_congr_left fun i _ => ?_
          simp only [Function.comp]
          push_cast
          ring
  have heq := hmain N seed hlo hhi
  refine ⟨heq, ?_, ?_⟩
  · rw [heq]
    exact (List.nodup_range N).map (fun a b hab => by omega)
  · rw [heq, List.chain'_map]
    obtain ⟨m, rfl⟩ : ∃ m, N = m + 1 := ⟨N - 1, by omega⟩
    rw [List.chain'_range_succ]
    intro k _
    push_cast
    ring

/-- C4 amended witness: three calls from stored value 5 return `[5, 6, 7]`,
distinct and chained by successor. -/
theorem counterValues_contiguous_witness :
    counterValues 5 3 = (List.range 3).map (fun i : Nat => (5 : Int) + (i : Int))
    ∧ (counterValues 5 3).Nodup
    ∧ (counterValues 5 3).Chain' (fun a b => b = a + 1) :=
  counterValues_contiguous 5 3 (by norm_num) (by norm_num) (by norm_num)

/-! ### Lemmas about the byte-wise key order and the environment map -/

/-- Unfolding of `bytesLt` on two nonempty lists: smaller head, or equal
head and smaller tail. -/
theorem bytesLt_cons_iff (a b : Nat) (as bs : List Nat) :
    bytesLt (a :: as) (b :: bs) = true
      ↔ a < b ∨ (a = b ∧ bytesLt as bs = true) := by
  simp only [bytesLt]
  by_cases h1 : a < b
  · simp [h1]
  · by_cases h2 : b < a
    · constructor
      · intro h
        simp [h1, h2] at h
      · intro h
        rcases h with h | ⟨h, _⟩ <;> omega
    · have hab : a = b := by omega
      subst hab
      simp [h1, h2]

/-- `bytesLt` is irreflexive. -/
theorem bytesLt_irrefl : ∀ a : List Nat, bytesLt a a = false := by
  intro a
  induction a with
  | nil => rfl
  | cons x xs ih =>
    simp only [bytesLt, lt_irrefl, if_false, ih]

/-- `bytesLt` is transitive. -/
theorem bytesLt_trans : ∀ a b c : List Nat,
    bytesLt a b = true → bytesLt b c = true → bytesLt a c = true := by
  intro a
  induction a with
  | nil =>
    intro b c hab hbc
    cases c with
    | nil =>
      cases b with
      | nil => exact hbc
      | cons y ys => simp [bytesLt] at hbc
    | cons z zs => simp [bytesLt]
  | cons x xs ih =>
    intro b c hab hbc
    cases b with
    | nil => simp [bytesLt] at hab
    | cons y ys =>
      cases c with
      | nil => simp [bytesLt] at hbc
      | cons z zs =>
        rw [bytesLt_cons_iff] at hab hbc ⊢
        rcases hab with h1 | ⟨h1, h1'⟩ <;> rcases hbc with h2 | ⟨h2, h2'⟩
        · exact Or.inl (by omega)
        · exact Or.inl (by omega)
        · exact Or.inl (by omega)
        · exact Or.inr ⟨by omega, ih ys zs h1' h2'⟩

/-- `bytesLt` is total on distinct lists. -/
theorem bytesLt_total : ∀ a b : List Nat,
    a ≠ b → bytesLt a b = true ∨ bytesLt b a = true := by
  intro a
  induction a with
  | nil =>
    intro b hne
    cases b with
    | nil => exact absurd rfl hne
    | cons y ys => exact Or.inl (by simp [bytesLt])
  | cons x xs ih =>
    intro b hne
    cases b with
    | nil => exact Or.inr (by simp [bytesLt])
    | cons y ys =>
      by_cases hxy : x = y
      · subst hxy
        have hne' : xs ≠ ys := fun h => hne (by rw [h])
        rcases ih ys hne' with h | h
        · exact Or.inl ((bytesLt_cons_iff _ _ _ _).mpr (Or.inr ⟨rfl, h⟩))
        · exact Or.inr ((bytesLt_cons_iff _ _ _ _).mpr (Or.inr ⟨rfl, h⟩))
      · rcases Nat.lt_or_ge x y with h | h
        · exact Or.inl ((bytesLt_cons_iff _ _ _ _).mpr (Or.inl h))
        · exact Or.inr ((bytesLt_cons_iff _ _ _ _).mpr (Or.inl (by omega)))

/-- The sortedness invariant of the environment map: keys strictly
increasing in byte-wise lexicographic order. -/
def keysSorted (l : List (List Nat × List Nat)) : Prop :=
  l.Pairwise fun p q => bytesLt p.1 q.1 = true

/-- Every element of `env_insert key value l` is the inserted pair or one
of the original entries. -/
theorem mem_env_insert (key value : List Nat) :
    ∀ l p, p ∈ env_insert key value l → p = (key, value) ∨ p ∈ l := by
  intro l
  induction l with
  | nil =>
    intro p hp
    simp only [env_insert, List.mem_singleton] at hp
    exact Or.inl hp
  | cons kv rest ih =>
    intro p hp
    obtain ⟨k, v⟩ := kv
    simp only [env_insert] at hp
    by_cases h1 : bytesLt key k = true
    · rw [if_pos h1] at hp
      rcases List.mem_cons.mp hp with h | h
      · exact Or.inl h
      · exact Or.inr h
    · rw [if_neg h1] at hp
      by_cases h2 : key = k
      · rw [if_pos h2] at hp
        exact Or.inr hp
      · rw [if_neg h2] at hp
        rcases List.mem_cons.mp hp with h | h
        · exact Or.inr (List.mem_cons.mpr (Or.inl h))
        · rcases ih p h with h' | h'
          · exact Or.inl h'
          · exact Or.inr (List.mem_cons.mpr (Or.inr h'))

/-- `env_insert` preserves the sortedness invariant. -/
theorem env_insert_sorted (key value : List Nat) :
    ∀ l, keysSorted l → keysSorted (env_insert key value l) := by
  intro l
  induction l with
  | nil =>
    intro _
    simp [env_insert, keysSorted]
  | cons kv rest ih =>
    obtain ⟨k, v⟩ := kv
    intro hs
    have hs' := List.pairwise_cons.mp hs
    simp only [env_insert]
    by_cases h1 : bytesLt key k = true
    · rw [if_pos h1]
      refine List.pairwise_cons.mpr ⟨?_, hs⟩
      intro q hq
      rcases List.mem_cons.mp hq with rfl | hq'
      · exact h1
      · exact bytesLt_trans key k q.1 h1 (hs'.1 q hq')
    · rw [if_neg h1]
      by_cases h2 : key = k
      · rw [if_pos h2]
        exact hs
      · rw [if_neg h2]
        refine List.pairwise_cons.mpr ⟨?_, ih hs'.2⟩
        intro q hq
        rcases mem_env_insert key value rest q hq with rfl | hq'
        · rcases bytesLt_total key k h2 with h | h
          · exact absurd h h1
          · exact h
        · exact hs'.1 q hq'

/-- The environment map built by `get_environment_variables` is sorted by
byte-wise ascending key order. -/
theorem get_environment_variables_sorted (environ : List (List Nat)) :
    keysSorted (platform.get_environment_variables environ) := by
  have main : ∀ (es : List (List Nat)) (acc : List (List Nat × List Nat)),
      keysSorted acc →
      keysSorted (es.foldl
        (fun env_vars entry =>
          match splitAtFirstEq entry with
          | some (k, v) => env_insert k v env_vars
          | none => env_vars) acc) := by
    intro es
    induction es with
    | nil =>
      intro acc h
      exact h
    | cons e es ih =>
      intro acc h
      simp only [List.foldl_cons]
      cases hsp : splitAtFirstEq e with
      | none =>
        simp only [hsp]
        exact ih _ h
      | some kv =>
        obtain ⟨k, v⟩ := kv
        simp only [hsp]
        exact ih _ (env_insert_sorted k v acc h)
  exact main environ [] (by simp [keysSorted])

/-- Serializing the environment entries by repeated appending equals
per-entry concatenation of `key = value` blocks. -/
theorem env_string_eq :
    ∀ (l : List (List Nat × List Nat)) (acc : List Nat),
      l.foldl (fun acc kv => acc ++ kv.1 ++ [61] ++ kv.2) acc
        = acc ++ (l.map fun kv => kv.1 ++ [61] ++ kv.2).flatten := by
  intro l
  induction l with
  | nil =>
    intro acc
    simp
  | cons x xs ih =>
    intro acc
    simp only [List.foldl_cons, List.map_cons, List.flatten_cons, ih]
    simp [List.append_assoc]

/-! ### Claim theorems about the fingerprint and the platform layer -/

/-- C6: the fingerprint byte sequence is the raw hostname bytes, then the
4-byte little-endian process id, then the `key=value` bytes of every
environment variable in byte-wise ascending key order, one entry per key,
with no separator between successive pairs. -/
theorem fingerprint_layout (hostname : List Nat) (pid : Int)
    (environ : List (List Nat)) :
    fingerprint_generate hostname pid
        (platform.get_environment_variables environ)
      = hostname ++ le32Bytes (pid % 2 ^ 32).toNat
        ++ ((platform.get_environment_variables environ).map
            (fun kv => kv.1 ++ [61] ++ kv.2)).flatten
    ∧ keysSorted (platform.get_environment_variables environ)
    ∧ ((platform.get_environment_variables environ).map Prod.fst).Nodup := by
  refine ⟨?_, get_environment_variables_sorted environ, ?_⟩
  · simp only [fingerprint_generate, env_string_eq, List.nil_append]
  · have hs := get_environment_variables_sorted environ
    have hne : (platform.get_environment_variables environ).Pairwise
        fun p q => p.1 ≠ q.1 := by
      refine hs.imp fun {p q} h => ?_
      intro heq
      rw [heq] at h
      rw [bytesLt_irrefl] at h
      exact Bool.false_ne_true h
    exact List.pairwise_map.mpr hne

/-- After the cache is filled, any number of further `Fingerprint::get`
calls return the cached bytes and leave the cache unchanged. -/
theorem fingerprintCalls_cached (hostname : List Nat) (pid : Int)
    (environ : List (List Nat)) :
    ∀ (m : Nat) (v : List Nat),
      fingerprintCalls hostname pid environ m (some v)
        = (List.replicate m v, some v) := by
  intro m
  induction m with
  | zero => intro v; rfl
  | succ n ih =>
    intro v
    simp only [fingerprintCalls, Fingerprint.get, ih, List.replicate_succ]

/-- C7: `Fingerprint::get` returns a byte-identical sequence on every call
within one process: `n ≥ 1` calls starting from the empty cache all return
the value computed by the single `fingerprint_generate` run, the cache ends
up holding exactly that value, and a call on a filled cache returns the
cached value without recomputation. -/
theorem fingerprint_cached (hostname : List Nat) (pid : Int)
    (environ : List (List Nat)) (n : Nat) (h1 : 1 ≤ n) :
    (fingerprintCalls hostname pid environ n none).1
      = List.replicate n (fingerprint_generate hostname pid
          (platform.get_environment_variables environ))
    ∧ (fingerprintCalls hostname pid environ n none).2
      = some (fingerprint_generate hostname pid
          (platform.get_environment_variables environ))
    ∧ (∀ v, Fingerprint.get hostname pid environ (some v) = (v, some v)) := by
  obtain ⟨m, rfl⟩ : ∃ m, n = m + 1 := ⟨n - 1, by omega⟩
  constructor
  · simp only [fingerprintCalls, Fingerprint.get, fingerprintCalls_cached,
      List.replicate_succ]
  · constructor
    · simp only [fingerprintCalls, Fingerprint.get, fingerprintCalls_cached]
    · intro v
      rfl

/-- C7 witness: two calls on a concrete process snapshot both return the
one computed fingerprint. -/
theorem fingerprint_cached_witness :
    (fingerprintCalls [104] 7 [[65, 61, 66]] 2 none).1
      = List.replicate 2 (fingerprint_generate [104] 7
          (platform.get_environment_variables [[65, 61, 66]]))
    ∧ (fingerprintCalls [104] 7 [[65, 61, 66]] 2 none).2
      = some (fingerprint_generate [104] 7
          (platform.get_environment_variables [[65, 61, 66]]))
    ∧ (∀ v, Fingerprint.get [104] 7 [[65, 61, 66]] (some v) = (v, some v)) :=
  fingerprint_cached [104] 7 [[65, 61, 66]] 2 (by norm_num)

/-- Serializing bytes by repeatedly appending hex pairs equals per-byte
concatenation. -/
theorem generate_random_hostname_eq (bytes : List Nat) :
    platform.generate_random_hostname bytes
      = (bytes.map platform.hexByte).flatten := by
  have main : ∀ (l : List Nat) (acc : List Nat),
      l.foldl (fun result BYTE => result ++ platform.hexByte BYTE) acc
        = acc ++ (l.map platform.hexByte).flatten := by
    intro l
    induction l with
    | nil =>
      intro acc
      simp
    | cons x xs ih =>
      intro acc
      simp only [List.foldl_cons, List.map_cons, List.flatten_cons, ih]
      simp [List.append_assoc]
  simpa using main bytes []

/-- C9: when the platform hostname call fails, `get_hostname` substitutes
the 16-character lowercase-hexadecimal string built from the next 8 random
bytes instead of propagating an error; on success the system hostname is
returned unchanged.  The function is total: it returns a byte string in
every case. -/
theorem hostname_fallback (rng : Nat → Nat) (h : ∀ i, rng i < 256) :
    platform.get_hostname none rng
      = platform.generate_random_hostname ((List.range 8).map rng)
    ∧ (platform.get_hostname none rng).length = 16
    ∧ (∀ c ∈ platform.get_hostname none rng,
        (48 ≤ c ∧ c ≤ 57) ∨ (97 ≤ c ∧ c ≤ 102))
    ∧ (∀ hostname, platform.get_hostname (some hostname) rng = hostname) := by
  have hbytes : ∀ b ∈ (List.range 8).map rng, b < 256 := by
    intro b hb
    rcases List.mem_map.mp hb with ⟨i, _, rfl⟩
    exact h i
  have heq : platform.get_hostname none rng
      = (((List.range 8).map rng).map platform.hexByte).flatten := by
    simp only [platform.get_hostname]
    exact generate_random_hostname_eq _
  refine ⟨rfl, ?_, ?_, fun _ => rfl⟩
  · rw [heq, List.length_flatten, List.map_map, List.map_map]
    have hconst : (List.length ∘ platform.hexByte) ∘ rng = fun _ => 2 := by
      funext i
      simp [platform.hexByte, Function.comp]
    rw [hconst]
    rfl
  · intro c hc
    rw [heq] at hc
    rcases List.mem_flatten.mp hc with ⟨piece, hpiece, hcp⟩
    rcases List.mem_map.mp hpiece with ⟨b, hb, rfl⟩
    have hb256 : b < 256 := hbytes b hb
    have hdig : ∀ d : Nat, d < 16 →
        (48 ≤ platform.hexDigit d ∧ platform.hexDigit d ≤ 57)
        ∨ (97 ≤ platform.hexDigit d ∧ platform.hexDigit d ≤ 102) := by
      decide
    simp only [platform.hexByte, List.mem_cons, List.mem_singleton,
      List.not_mem_nil, or_false] at hcp
    rcases hcp with rfl | rfl
    · exact hdig _ (by omega)
    · exact hdig _ (by omega)

/-- C9 witness: with an all-zero random stream the fallback hostname is the
16 bytes of `"0000000000000000"`. -/
theorem hostname_fallback_witness :
    platform.get_hostname none (fun _ => 0)
      = platform.generate_random_hostname ((List.range 8).map (fun _ => 0))
    ∧ (platform.get_hostname none (fun _ => 0)).length = 16
    ∧ (∀ c ∈ platform.get_hostname none (fun _ => 0),
        (48 ≤ c ∧ c ≤ 57) ∨ (97 ≤ c ∧ c ≤ 102))
    ∧ (∀ hostname, platform.get_hostname (some hostname) (fun _ => 0)
        = hostname) :=
  hostname_fallback (fun _ => 0) (by intro i; norm_num)

/-- C10: the fingerprint serialization is not injective in the
environment: the distinct environment tables `A=B, C=D` and `A=BC=D`
(byte lists, `61` = `'='`) produce identical fingerprint bytes for the same
hostname and process id, because `key=value` pairs are concatenated with no
separator. -/
theorem fingerprint_not_injective :
    platform.get_environment_variables [[65, 61, 66], [67, 61, 68]]
      = [([65], [66]), ([67], [68])]
    ∧ platform.get_environment_variables [[65, 61, 66, 67, 61, 68]]
      = [([65], [66, 67, 61, 68])]
    ∧ ([([65], [66]), ([67], [68])] : List (List Nat × List Nat))
        ≠ [([65], [66, 67, 61, 68])]
    ∧ fingerprint_generate [104] 7 [([65], [66]), ([67], [68])]
      = fingerprint_generate [104] 7 [([65], [66, 67, 61, 68])] := by
  refine ⟨by decide, by decide, by decide, by decide⟩

/-- C3: for every byte sequence, `encode_base36` returns the base-36
representation of the input read as one big-endian unsigned integer of
arbitrary width, with no leading zero digits (`"0"` only for value zero);
empty and all-zero input both yield `"0"`, and the concrete examples from
the spec hold. -/
theorem encode_base36_spec (data : List Nat) (h : ∀ b ∈ data, b < 256) :
    encode_base36 data = natToBase36 (bigEndianVal data)
    ∧ (bigEndianVal data = 0 → encode_base36 data = "0")
    ∧ ((encode_base36 data).toList.head? = some '0'
        → encode_base36 data = "0")
    ∧ encode_base36 [] = "0"
    ∧ encode_base36 [0, 0, 0, 0] = "0"
    ∧ encode_base36 [42] = "16"
    ∧ encode_base36 [255] = "73"
    ∧ encode_base36 [1, 0] = "74" := by
  have heq := encode_base36_eq data h
  refine ⟨heq, ?_, ?_, by decide, by decide, by decide, by decide, by decide⟩
  · intro h0
    rw [heq]
    simp only [natToBase36, if_pos h0]
  · intro hhead
    rw [heq] at hhead ⊢
    by_cases h0 : bigEndianVal data = 0
    · simp only [natToBase36, if_pos h0]
    · exfalso
      simp only [natToBase36, if_neg h0, string_mk_toList] at hhead
      rw [List.head?_reverse, List.getLast?_map] at hhead
      have hne : Nat.digits 36 (bigEndianVal data) ≠ [] :=
        Nat.digits_ne_nil_iff_ne_zero.mpr h0
      rw [List.getLast?_eq_getLast_of_ne_nil hne] at hhead
      simp only [Option.map_some', Option.some.injEq] at hhead
      set d := (Nat.digits 36 (bigEndianVal data)).getLast hne with hd
      have hmem : d ∈ Nat.digits 36 (bigEndianVal data) := List.getLast_mem hne
      have hlt : d < 36 := Nat.digits_lt_base (by norm_num) hmem
      have hnz : d ≠ 0 := Nat.getLast_digit_ne_zero 36 h0
      have hchar : ∀ k : Nat, k < 36 → k ≠ 0
          → BASE36_CHARS.getD k '0' ≠ '0' := by decide
      exact hchar d hlt hnz hhead

/-- C3 witness: for the byte input `[1, 0]` (value 256) the encoding equals
the canonical base-36 string and the head digit is nonzero. -/
theorem encode_base36_spec_witness :
    (∀ b ∈ [(1 : Nat), 0], b < 256)
    ∧ encode_base36 [1, 0] = natToBase36 (bigEndianVal [1, 0])
    ∧ ((encode_base36 [1, 0]).toList.head? = some '0'
        → encode_base36 [1, 0] = "0") :=
  ⟨by decide, (encode_base36_spec [1, 0] (by decide)).1,
    (encode_base36_spec [1, 0] (by decide)).2.2.1⟩

end Cuid2
